import Mathlib

/-!
Verification of the WJD jazz-solo preprocessing pipeline
(`src/Preprocess/{chord_parser,preprocess,utils,config}.py`).

Shallow embedding conventions:
* Python strings are `List Char` (the chord / key / metadata text cells).
* Python floats appearing in the grid math are modelled as exact rationals `ℚ`;
  Python `round` is round-half-to-even (`pyRound`), `int(...)` on a float
  truncates toward zero (`truncQ`).
* Nullable dataframe cells (`NaN` / `pd.NA`) are `Option _` values; the
  numeric cells fed to `safe_int` (beat / tatum / division) are a `Val`
  that is an integer, a rational, or missing.
* Python `%` on integers with positive modulus coincides with `Int.emod`,
  which is Lean's `%` on `ℤ`.
-/

namespace WJDPre

/-- A numeric dataframe cell: an integer, a float (modelled as `ℚ`), or
missing (`NaN` / `None`, i.e. `pd.isna` is true). -/
inductive Val where
  | vi : ℤ → Val
  | vq : ℚ → Val
  | na : Val
deriving DecidableEq, Repr

/-- Python `int(x)` on a float: truncation toward zero. -/
def truncQ (x : ℚ) : ℤ := if 0 ≤ x then ⌊x⌋ else ⌈x⌉

/-- Python `round(x)`: round half to even (banker's rounding). -/
def pyRound (x : ℚ) : ℤ :=
  let f := ⌊x⌋
  let frac := x - (f : ℚ)
  if frac < 1/2 then f
  else if 1/2 < frac then f + 1
  else if f % 2 = 0 then f else f + 1

/-- `utils.safe_int(value, default)`: `default` when `pd.isna(value)`,
otherwise `int(value)` (truncation for floats; ints unchanged). -/
def safe_int (value : Val) (default : ℤ) : ℤ :=
  match value with
  | .na => default
  | .vi n => n
  | .vq x => truncQ x

/-- `utils.safe_divide(numerator, denominator, default)`: `default` when the
denominator is zero or either operand is missing, else the exact quotient. -/
def safe_divide (numerator denominator : Option ℚ) (default : ℚ) : ℚ :=
  match numerator, denominator with
  | some n, some d => if d = 0 then default else n / d
  | _, _ => default

/-- `utils.clip_to_range(value, min_val, max_val) = max(min_val, min(max_val, value))`. -/
def clip_to_range (value min_val max_val : ℤ) : ℤ :=
  max min_val (min max_val value)

/-- Index of the first element satisfying `p` (Python `list.index` /
first-match scan), `none` if absent. -/
def idxFirst (p : α → Bool) : List α → Option ℕ
  | [] => none
  | a :: t => if p a then some 0 else (idxFirst p t).map (· + 1)

/-- Python `str.strip()`: drop whitespace from both ends. -/
def pyStrip (s : List Char) : List Char :=
  ((s.dropWhile Char.isWhitespace).reverse.dropWhile Char.isWhitespace).reverse

/-! ## Configuration constants (`config.py`) -/

/-- `config.NOTE_NAMES` (flat spellings). -/
def NOTE_NAMES : List (List Char) :=
  [['C'], ['D','b'], ['D'], ['E','b'], ['E'], ['F'],
   ['G','b'], ['G'], ['A','b'], ['A'], ['B','b'], ['B']]

/-- `config.NOTE_NAMES_SHARP` (sharp spellings). -/
def NOTE_NAMES_SHARP : List (List Char) :=
  [['C'], ['C','#'], ['D'], ['D','#'], ['E'], ['F'],
   ['F','#'], ['G'], ['G','#'], ['A'], ['A','#'], ['B']]

/-- `config.CHORD_QUALITY_MAP`, in insertion order
`Maj ↦ 0, min ↦ 1, dom ↦ 2, half-dim ↦ 3`. -/
def CHORD_QUALITY_MAP : List (List Char × List (List Char)) :=
  [ (['M','a','j'], [['j','7'], ['6'], ['6','9']]),
    (['m','i','n'], [['-'], ['-','7'], ['-','6']]),
    (['d','o','m'], [['7'], ['7','9','b'], ['7','9','1','3']]),
    (['h','a','l','f','-','d','i','m'], [['m','7','b','5']]) ]

/-- `config.GRID_PER_BEAT = 12`. -/
def GRID_PER_BEAT : ℤ := 12

/-- `config.GRID_PER_BAR = 48`. -/
def GRID_PER_BAR : ℤ := 48

/-- The no-chord sentinel `'NC'`. -/
def NC : List Char := ['N', 'C']

/-! ## ChordParser (`chord_parser.py`) -/

/-- `ChordParser._is_valid_chord`: not the `'NC'` sentinel and not empty. -/
def is_valid_chord (chord_symbol : List Char) : Bool :=
  chord_symbol ≠ NC && chord_symbol ≠ []

/-- The root token of a (stripped) chord symbol: the first character,
extended to two characters when the second one is `#` or `b`. -/
def rootTokenOf (s : List Char) : List Char :=
  match s with
  | c1 :: c2 :: _ => if c2 = '#' ∨ c2 = 'b' then [c1, c2] else [c1]
  | _ => s.take 1

/-- The quality token of a (stripped) chord symbol: everything after the
root token. -/
def qualityTokenOf (s : List Char) : List Char :=
  match s with
  | _ :: c2 :: rest => if c2 = '#' ∨ c2 = 'b' then rest else c2 :: rest
  | _ => s.drop 1

/-- The root-lookup block of `parse_chord`: first occurrence in
`NOTE_NAMES`, else in `NOTE_NAMES_SHARP`, else pitch class 0. -/
def rootIndexOf (t : List Char) : ℤ :=
  match idxFirst (fun n => n == t) NOTE_NAMES with
  | some i => (i : ℤ)
  | none =>
      match idxFirst (fun n => n == t) NOTE_NAMES_SHARP with
      | some i => (i : ℤ)
      | none => 0

/-- The quality-lookup block of `parse_chord`: the first category of
`CHORD_QUALITY_MAP` whose suffix list contains the token, else 0 (Major). -/
def qualityIndexOf (q : List Char) : ℤ :=
  match idxFirst (fun kv => kv.2.contains q) CHORD_QUALITY_MAP with
  | some i => (i : ℤ)
  | none => 0

/-- `ChordParser.parse_chord`.  Returns `none` for an invalid symbol,
otherwise `some (root pitch class, quality index)` obtained by splitting the
stripped symbol into root and quality tokens and looking each up. -/
def parse_chord (chord_symbol : List Char) : Option (ℤ × ℤ) :=
  if ¬ is_valid_chord chord_symbol then none
  else
    let s := pyStrip chord_symbol
    some (rootIndexOf (rootTokenOf s), qualityIndexOf (qualityTokenOf s))

/-- `ChordParser.calculate_secondary_dominant`:
`((target_root + 7) % 12, index of 'dom' in CHORD_QUALITY_MAP)`. -/
def calculate_secondary_dominant (target_root : ℤ) : ℤ × ℤ :=
  let quality_dom : ℤ :=
    match idxFirst (fun kv => kv.1 == ['d','o','m']) CHORD_QUALITY_MAP with
    | some i => (i : ℤ)
    | none => 0
  ((target_root + 7) % 12, quality_dom)

example : parse_chord ['E','b','j','7'] = some (3, 0) := by decide
example : parse_chord ['G','m','7','b','5'] = some (7, 3) := by decide
example : parse_chord NC = none := by decide
example : calculate_secondary_dominant 0 = (7, 2) := by decide

/-! ## Data model

One flattened per-solo table row (the columns present after
`Preprocessor._load_and_flatten_solo` plus the derived columns appended by
the later stages; before a stage runs, its output columns hold the neutral
initial values given in `mkRow`). -/

/-- One record of the `beats` table (per-solo query in `data_loader.py`). -/
structure BeatEvent where
  beatid : ℤ
  bar : ℤ
  beat : ℤ
  chord : List Char
  signature : List Char
  chorus_id : ℤ
deriving DecidableEq, Repr

/-- One record of the `melody` table (per-solo query in `data_loader.py`). -/
structure MelodyEvent where
  eventid : ℤ
  pitch : Option ℤ
  onset : Option ℚ
  duration : Option ℚ
  bar : ℤ
  beat : ℤ
  tatum : Val
  division : Val
  beatdur : Option ℚ
deriving DecidableEq, Repr

/-- The single `solo_info` record of a solo. -/
structure SoloInfo where
  key : List Char
  avgtempo : ℚ
  performer : List Char
  style : List Char
  title : List Char
deriving DecidableEq, Repr

/-- One row of the per-solo working table. -/
structure Row where
  beatid : ℤ
  melid : ℤ
  bar : ℤ
  beat : ℤ
  chord : List Char
  signature : List Char
  chorus_id : ℤ
  eventid : Option ℤ
  pitch : Option ℤ
  onset : Option ℚ
  duration : Option ℚ
  tatum : Val
  division : Val
  beatdur : Option ℚ
  key : List Char
  avgtempo : ℚ
  performer : List Char
  style : List Char
  title : List Char
  chord_root : Option ℤ
  chord_quality : Option ℤ
  next_chord : List Char
  next_chord_root : Option ℤ
  next_chord_quality : Option ℤ
  pos_grid : ℤ
  dur_grid : ℤ
  prev_interval : ℤ
  key_center : ℤ
  key_shift : ℤ
  chord_rel_pitch : Option ℤ
deriving DecidableEq, Repr

/-- The row built by the left merge for one beat event and its (optional)
matching melody event, with the solo metadata broadcast on.  Columns that are
only created by later pipeline stages start at neutral values. -/
def mkRow (b : BeatEvent) (m : Option MelodyEvent) (info : SoloInfo)
    (melid : ℤ) : Row :=
  { beatid := b.beatid
    melid := melid
    bar := b.bar
    beat := b.beat
    chord := b.chord
    signature := b.signature
    chorus_id := b.chorus_id
    eventid := m.map (·.eventid)
    pitch := m.bind (·.pitch)
    onset := m.bind (·.onset)
    duration := m.bind (·.duration)
    tatum := match m with | some me => me.tatum | none => .na
    division := match m with | some me => me.division | none => .na
    beatdur := m.bind (·.beatdur)
    key := info.key
    avgtempo := info.avgtempo
    performer := info.performer
    style := info.style
    title := info.title
    chord_root := none
    chord_quality := none
    next_chord := []
    next_chord_root := none
    next_chord_quality := none
    pos_grid := 0
    dur_grid := 0
    prev_interval := 0
    key_center := 0
    key_shift := 0
    chord_rel_pitch := none }

/-- `Preprocessor._load_and_flatten_solo`: the beats table is the base; each
beat row is left-merged with the melody events whose `(bar, beat)` match
(pandas `how='left'`: a beat with no match yields one row with missing melody
cells, a beat with matches yields one row per match, in melody order). -/
def load_and_flatten_solo (beats : List BeatEvent) (melody : List MelodyEvent)
    (info : SoloInfo) (melid : ℤ) : List Row :=
  beats.flatMap (fun b =>
    match melody.filter (fun m => m.bar == b.bar && m.beat == b.beat) with
    | [] => [mkRow b none info melid]
    | ms => ms.map (fun m => mkRow b (some m) info melid))

/-! ## Chord alignment (`Preprocessor._align_chords`) -/

/-- First component of a parsed chord (`chord_root` column after the parse
step: `pd.NA` when `parse_chord` returned `None`). -/
def parseRt (c : List Char) : Option ℤ := (parse_chord c).map (·.1)

/-- Second component of a parsed chord (`chord_quality` column). -/
def parseQl (c : List Char) : Option ℤ := (parse_chord c).map (·.2)

/-- State of the forward sweep: the `(chord, chord_root, chord_quality)`
triple of the row at `idx_last_chord`.  After the parse step that row's
root/quality columns are exactly the parse of its chord text, so carrying
the triple is the same as carrying the index. -/
structure ChSt where
  ch : List Char
  rt : Option ℤ
  ql : Option ℤ
deriving DecidableEq, Repr

/-- Initial sweep state: `idx_last_chord = 0` before row 0 is visited.  If
row 0 has an empty chord it keeps (and propagates) its own parsed values
`('', NA, NA)`, which is exactly this state; if not, the state is replaced
at row 0 before being read. -/
def initSt : ChSt := ⟨[], none, none⟩

/-- Pointer update of the forward sweep: a row with non-empty chord text
becomes the new `idx_last_chord`. -/
def updSt (σ : ChSt) (c : List Char) : ChSt :=
  if c = [] then σ else ⟨c, parseRt c, parseQl c⟩

/-- Overwrite a row's chord columns with those of the pointed-to row. -/
def setCh (r : Row) (σ : ChSt) : Row :=
  { r with chord := σ.ch, chord_root := σ.rt, chord_quality := σ.ql }

/-- The fused parse step + forward sweep of `_align_chords`: every row's
`chord`/`chord_root`/`chord_quality` are overwritten with the triple of the
most recent row (self included) whose original chord text is non-empty. -/
def fwGo (σ : ChSt) : List Row → List Row
  | [] => []
  | r :: t =>
      let σ' := updSt σ r.chord
      setCh r σ' :: fwGo σ' t

/-- The `(chord, chord_root, chord_quality)` columns of a row. -/
def tripleOf (r : Row) : List Char × Option ℤ × Option ℤ :=
  (r.chord, r.chord_root, r.chord_quality)

/-- Write the `next_chord` / `next_chord_root` / `next_chord_quality`
columns of a row. -/
def setNx (r : Row) (t : List Char × Option ℤ × Option ℤ) : Row :=
  { r with next_chord := t.1, next_chord_root := t.2.1,
           next_chord_quality := t.2.2 }

/-- Backward sweep of `_align_chords`, processing `r :: rest` from the end.
Returns the final `(cur_chord, triple at idx_next_chord)` state together
with the processed rows.  When a row's chord differs from `cur_chord`,
`idx_next_chord` becomes `idx + 1`, i.e. the triple of the next input row
(the sweep never modifies the chord columns it reads, so the input row's
triple is what `.at[idx+1, ...]` yields). -/
def bwAux (r : Row) : List Row → ((List Char × (List Char × Option ℤ × Option ℤ)) × List Row)
  | [] => ((r.chord, tripleOf r), [setNx r (tripleOf r)])
  | r2 :: rest =>
      let sp := bwAux r2 rest
      let st' := if r.chord ≠ sp.1.1 then (r.chord, tripleOf r2) else sp.1
      (st', setNx r st'.2 :: sp.2)

/-- The lookahead (backward) sweep over a whole row list.  The Python raises
on an empty frame (`iloc[-1]`); per-solo tables are never empty, and the
empty list maps to itself. -/
def next_chord_sweep (l : List Row) : List Row :=
  match l with
  | [] => []
  | r :: t => (bwAux r t).2

/-- `Preprocessor._align_chords`: parse step + forward inherit sweep +
backward lookahead sweep. -/
def align_chords (l : List Row) : List Row :=
  next_chord_sweep (fwGo initSt l)

/-! ## Pickup fill (`Preprocessor._fill_pickup_measures`) -/

/-- `solo_df.index[(chord != 'NC') & (chord != '')].min()`: position of the
first row whose chord text is a real harmony. -/
def first_valid_idx (l : List Row) : Option ℕ :=
  idxFirst (fun r => r.chord ≠ NC && r.chord ≠ []) l

/-- The pickup assignment for one row: secondary-dominant root/quality and
the chord text `NOTE_NAMES[dominant_root] + "7"`. -/
def pickupRow (dr dq : ℤ) (r : Row) : Row :=
  { r with chord_root := some dr, chord_quality := some dq,
           chord := (NOTE_NAMES.getD dr.toNat []) ++ ['7'] }

/-- `for idx in range(k)` of the pickup loop: rewrite the first `k` rows. -/
def fillBelow (dr dq : ℤ) : ℕ → List Row → List Row
  | _, [] => []
  | 0, l => l
  | k + 1, r :: t => pickupRow dr dq r :: fillBelow dr dq k t

/-- `Preprocessor._fill_pickup_measures`.  With no valid chord anywhere the
pandas index `.min()` is `NaN` and `NaN > 0` is false, so the table is
returned unchanged.  The `chord_root = NA` branch cannot arise on aligned
input (there the first valid chord always has a parsed root; on such
impossible input the Python would raise inside
`calculate_secondary_dominant`), and is totalized to the identity. -/
def fill_pickup_measures (l : List Row) : List Row :=
  match first_valid_idx l with
  | none => l
  | some k =>
      if k = 0 then l
      else
        match l[k]? with
        | none => l
        | some rk =>
            match rk.chord_root with
            | none => l
            | some r0 =>
                let dd := calculate_secondary_dominant r0
                fillBelow dd.1 dd.2 k l

/-! ## Rhythmic features (`_calculate_position_grid`, `_calculate_duration_grid`) -/

/-- `Preprocessor._calculate_position_grid`. -/
def calculate_position_grid (beat tatum division : Val) : ℤ :=
  let b := safe_int beat 1
  let t := safe_int tatum 1
  let d0 := safe_int division 1
  let d := if d0 = 0 then 1 else d0
  let pos := (b - 1) * GRID_PER_BEAT +
    pyRound (((t - 1 : ℤ) : ℚ) / ((d : ℤ) : ℚ) * ((GRID_PER_BEAT : ℤ) : ℚ))
  clip_to_range pos 0 (GRID_PER_BAR - 1)

/-- `Preprocessor._calculate_duration_grid`. -/
def calculate_duration_grid (duration_sec beatdur_sec : Option ℚ) : ℤ :=
  if duration_sec = none ∨ beatdur_sec = none ∨ beatdur_sec = some 0 then 1
  else clip_to_range
    (pyRound (safe_divide duration_sec beatdur_sec 1 * ((GRID_PER_BEAT : ℤ) : ℚ)))
    1 GRID_PER_BAR

/-- `Preprocessor._add_rhythmic_features`: row-wise application of the two
grid formulas (`beat` comes from the beats table as an integer cell). -/
def add_rhythmic_features (l : List Row) : List Row :=
  l.map (fun r =>
    { r with pos_grid := calculate_position_grid (.vi r.beat) r.tatum r.division,
             dur_grid := calculate_duration_grid r.duration r.beatdur })

/-! ## Melodic features (`Preprocessor._add_melodic_features`) -/

/-- `pitch.diff().fillna(0)` walked left to right: the difference with the
previous row's pitch, `0` when either pitch is missing or at the first row. -/
def melodic_go (prev : Option ℤ) : List Row → List Row
  | [] => []
  | r :: t =>
      { r with prev_interval :=
          match prev, r.pitch with
          | some p0, some p => p - p0
          | _, _ => 0 } :: melodic_go r.pitch t

/-- `Preprocessor._add_melodic_features`. -/
def add_melodic_features (l : List Row) : List Row :=
  melodic_go none l

/-! ## Harmonic features (`Preprocessor._add_harmonic_features`) -/

/-- The `chord_rel_pitch` cell of one row: `(pitch - chord_root) % 12` when
`chord_root` is present, else `0`.  The subtraction is float arithmetic in
pandas, so a missing pitch propagates `NaN` through `%` and the later
`Int64` cast turns it into `NA`: hence the `none` result in that case. -/
def chord_rel_pitch_of (pitch chord_root : Option ℤ) : Option ℤ :=
  match chord_root with
  | none => some 0
  | some cr =>
      match pitch with
      | none => none
      | some p => some ((p - cr) % 12)

/-- `Preprocessor._add_harmonic_features`: parse the key of the first row
(root, default 0), set `key_shift = 0`, and compute `chord_rel_pitch`
row-wise. -/
def add_harmonic_features (l : List Row) : List Row :=
  let key_value : List Char := match l with | [] => ['C'] | r :: _ => r.key
  let kc : ℤ := match parse_chord key_value with | some p => p.1 | none => 0
  l.map (fun r =>
    { r with key_center := kc, key_shift := 0,
             chord_rel_pitch := chord_rel_pitch_of r.pitch r.chord_root })

/-! ## Projection and dtypes (`_select_final_features`, `_convert_dtypes`) -/

/-- The projected output row (`feature_cols` of `_select_final_features`;
the working columns `tatum`, `division`, `beatdur` are dropped). -/
structure FinalRow where
  eventid : Option ℤ
  melid : ℤ
  beatid : ℤ
  bar : ℤ
  beat : ℤ
  chorus_id : ℤ
  pitch : Option ℤ
  onset : Option ℚ
  duration : Option ℚ
  pos_grid : ℤ
  dur_grid : ℤ
  prev_interval : ℤ
  chord : List Char
  chord_root : Option ℤ
  chord_quality : Option ℤ
  next_chord : List Char
  next_chord_root : Option ℤ
  next_chord_quality : Option ℤ
  chord_rel_pitch : Option ℤ
  key_center : ℤ
  key_shift : ℤ
  key : List Char
  avgtempo : ℚ
  performer : List Char
  style : List Char
  title : List Char
  signature : List Char
deriving DecidableEq, Repr

/-- `Preprocessor._select_final_features`: keep exactly the feature columns. -/
def select_final_features (l : List Row) : List FinalRow :=
  l.map (fun r =>
    { eventid := r.eventid, melid := r.melid, beatid := r.beatid,
      bar := r.bar, beat := r.beat, chorus_id := r.chorus_id,
      pitch := r.pitch, onset := r.onset, duration := r.duration,
      pos_grid := r.pos_grid, dur_grid := r.dur_grid,
      prev_interval := r.prev_interval,
      chord := r.chord, chord_root := r.chord_root,
      chord_quality := r.chord_quality,
      next_chord := r.next_chord, next_chord_root := r.next_chord_root,
      next_chord_quality := r.next_chord_quality,
      chord_rel_pitch := r.chord_rel_pitch,
      key_center := r.key_center, key_shift := r.key_shift,
      key := r.key, avgtempo := r.avgtempo, performer := r.performer,
      style := r.style, title := r.title, signature := r.signature })

/-- `Preprocessor._convert_dtypes`: a column-wise `astype` pass.  In this
typed model every cell already has its canonical nullable type (the one
semantic effect — `NaN → NA` for `chord_rel_pitch` — is reflected in
`chord_rel_pitch_of`), so the pass is the identity on the table. -/
def convert_dtypes (l : List FinalRow) : List FinalRow := l

/-- `Preprocessor._process_single_solo`: the full per-solo pipeline. -/
def process_single_solo (beats : List BeatEvent) (melody : List MelodyEvent)
    (info : SoloInfo) (melid : ℤ) : List FinalRow :=
  convert_dtypes (select_final_features (add_harmonic_features
    (add_melodic_features (add_rhythmic_features
      (fill_pickup_measures (align_chords
        (load_and_flatten_solo beats melody info melid)))))))

/-! ## Specification-side notions used to state the claims -/

/-- The last row of a list whose chord text is non-empty ("the most recent
non-empty chord" when applied to the prefix up to a position). -/
def lastNE : List Row → Option Row
  | [] => none
  | r :: t =>
      match lastNE t with
      | some x => some x
      | none => if r.chord = [] then none else some r

/-- Sweep state after folding the pointer update over a list of rows. -/
def stAfter (σ : ChSt) (l : List Row) : ChSt :=
  l.foldl (fun a r => updSt a r.chord) σ

/-- A sweep state is consistent when its root/quality are the parse of its
chord text (true of the initial state and preserved by updates). -/
def Consistent (σ : ChSt) : Prop :=
  σ.rt = parseRt σ.ch ∧ σ.ql = parseQl σ.ch

/-- A row list is aligned for start state `σ`: every row's chord triple
already equals the sweep state at its position (so a re-run of the forward
sweep rewrites each row with its current values). -/
def AlignedF (σ : ChSt) : List Row → Prop
  | [] => True
  | r :: t =>
      tripleOf r = ((updSt σ r.chord).ch, (updSt σ r.chord).rt, (updSt σ r.chord).ql) ∧
      AlignedF (updSt σ r.chord) t

/-- A concrete row used by the closed witness theorems (neutral values in
every column). -/
def sampleRow : Row :=
  { beatid := 1, melid := 5, bar := 1, beat := 1, chord := [],
    signature := ['4', '/', '4'], chorus_id := 1, eventid := none,
    pitch := none, onset := none, duration := none, tatum := .na,
    division := .na, beatdur := none, key := ['C'], avgtempo := 120,
    performer := [], style := [], title := [], chord_root := none,
    chord_quality := none, next_chord := [], next_chord_root := none,
    next_chord_quality := none, pos_grid := 0, dur_grid := 0,
    prev_interval := 0, key_center := 0, key_shift := 0,
    chord_rel_pitch := none }

/-- A concrete beat event for the closed witness theorems. -/
def sampleBeat : BeatEvent :=
  { beatid := 1, bar := 1, beat := 1, chord := ['C', '7'],
    signature := ['4', '/', '4'], chorus_id := 1 }

/-- A concrete solo-metadata record for the closed witness theorems. -/
def sampleInfo : SoloInfo :=
  { key := ['C'], avgtempo := 120, performer := [], style := [],
    title := [] }

/-- All fields of a row other than `chord`, `chord_root`, `chord_quality`
(the only columns the pickup fill writes), bundled for frame statements. -/
def nonChordFields (r : Row) :=
  (r.beatid, r.melid, r.bar, r.beat, r.signature, r.chorus_id, r.eventid,
   r.pitch, r.onset, r.duration, r.tatum, r.division, r.beatdur, r.key,
   r.avgtempo, r.performer, r.style, r.title, r.next_chord,
   r.next_chord_root, r.next_chord_quality, r.pos_grid, r.dur_grid,
   r.prev_interval, r.key_center, r.key_shift, r.chord_rel_pitch)

/-! ## Helper lemmas -/

theorem idxFirst_lt_length {p : α → Bool} :
    ∀ {l : List α} {i : ℕ}, idxFirst p l = some i → i < l.length := by
  intro l
  induction l with
  | nil => intro i h; simp [idxFirst] at h
  | cons a t ih =>
      intro i h
      simp only [idxFirst] at h
      by_cases hp : p a
      · simp only [hp, if_true, Option.some.injEq] at h
        subst h
        simp
      · rw [if_neg hp] at h
        cases hidx : idxFirst p t with
        | none => rw [hidx, Option.map_none'] at h; exact Option.noConfusion h
        | some j =>
            rw [hidx] at h
            simp only [Option.map_some', Option.some.injEq] at h
            subst h
            have := ih hidx
            simp only [List.length_cons]
            omega

theorem idxFirst_none {p : α → Bool} :
    ∀ {l : List α}, idxFirst p l = none →
      ∀ (i : ℕ) (x : α), l[i]? = some x → p x = false := by
  intro l
  induction l with
  | nil => intro _ i x h; simp at h
  | cons a t ih =>
      intro h i x hx
      simp only [idxFirst] at h
      by_cases hp : p a
      · simp [hp] at h
      · rw [if_neg hp, Option.map_eq_none'] at h
        match i with
        | 0 =>
            simp only [List.getElem?_cons_zero, Option.some.injEq] at hx
            subst hx
            exact Bool.of_not_eq_true hp
        | i + 1 =>
            simp only [List.getElem?_cons_succ] at hx
            exact ih h i x hx

theorem clip_to_range_mem {v lo hi : ℤ} (h : lo ≤ hi) :
    lo ≤ clip_to_range v lo hi ∧ clip_to_range v lo hi ≤ hi := by
  unfold clip_to_range
  constructor
  · exact le_max_left _ _
  · exact max_le h (min_le_left _ _)

theorem fwGo_length (σ : ChSt) (l : List Row) :
    (fwGo σ l).length = l.length := by
  induction l generalizing σ with
  | nil => rfl
  | cons r t ih => simp [fwGo, ih]

theorem fwGo_getElem? :
    ∀ (l : List Row) (σ : ChSt) (i : ℕ),
      (fwGo σ l)[i]? =
        (l[i]?).map (fun r => setCh r (stAfter σ (l.take (i + 1)))) := by
  intro l
  induction l with
  | nil => intro σ i; simp [fwGo]
  | cons r t ih =>
      intro σ i
      match i with
      | 0 => simp [fwGo, stAfter]
      | i + 1 =>
          simp only [fwGo, List.getElem?_cons_succ, List.take_succ_cons]
          rw [ih]
          rfl

theorem stAfter_lastNE :
    ∀ (l : List Row) (σ : ChSt),
      stAfter σ l =
        match lastNE l with
        | some x => ⟨x.chord, parseRt x.chord, parseQl x.chord⟩
        | none => σ := by
  intro l
  induction l with
  | nil => intro σ; rfl
  | cons r t ih =>
      intro σ
      have hstep : stAfter σ (r :: t) = stAfter (updSt σ r.chord) t := rfl
      rw [hstep, ih]
      cases hlt : lastNE t with
      | some x => simp [lastNE, hlt]
      | none =>
          simp only [lastNE, hlt]
          by_cases hc : r.chord = []
          · simp [hc, updSt]
          · simp [hc, updSt]

theorem consistent_initSt : Consistent initSt := by
  constructor <;> rfl

theorem consistent_updSt {σ : ChSt} (h : Consistent σ) (c : List Char) :
    Consistent (updSt σ c) := by
  unfold updSt
  by_cases hc : c = []
  · simpa [hc]
  · simp only [hc, if_false]
    constructor <;> rfl

theorem consistent_stAfter {σ : ChSt} (h : Consistent σ) (l : List Row) :
    Consistent (stAfter σ l) := by
  rw [stAfter_lastNE]
  cases lastNE l with
  | some x => constructor <;> rfl
  | none => exact h

theorem tripleOf_setNx (r : Row) (t : List Char × Option ℤ × Option ℤ) :
    tripleOf (setNx r t) = tripleOf r := rfl

theorem setNx_setNx (r : Row) (a b : List Char × Option ℤ × Option ℤ) :
    setNx (setNx r a) b = setNx r b := rfl

theorem chord_setNx (r : Row) (t : List Char × Option ℤ × Option ℤ) :
    (setNx r t).chord = r.chord := rfl

theorem bwAux_length :
    ∀ (t : List Row) (r : Row), ((bwAux r t).2).length = t.length + 1 := by
  intro t
  induction t with
  | nil => intro r; rfl
  | cons r2 rest ih => intro r; simp [bwAux, ih]

theorem next_chord_sweep_length (l : List Row) :
    (next_chord_sweep l).length = l.length := by
  cases l with
  | nil => rfl
  | cons r t => simp [next_chord_sweep, bwAux_length]

theorem bwAux_triples :
    ∀ (t : List Row) (r : Row),
      ((bwAux r t).2).map tripleOf = (r :: t).map tripleOf := by
  intro t
  induction t with
  | nil => intro r; rfl
  | cons r2 rest ih =>
      intro r
      simp only [bwAux, List.map_cons, tripleOf_setNx]
      have := ih r2
      simp only [List.map_cons] at this
      rw [this]

theorem next_chord_sweep_triples (l : List Row) :
    (next_chord_sweep l).map tripleOf = l.map tripleOf := by
  cases l with
  | nil => rfl
  | cons r t => simpa [next_chord_sweep] using bwAux_triples t r

theorem bwAux_pres :
    ∀ (t : List Row) (r : Row) (i : ℕ) (r' : Row),
      ((bwAux r t).2)[i]? = some r' →
      ∃ x nx, (r :: t)[i]? = some x ∧ r' = setNx x nx := by
  intro t
  induction t with
  | nil =>
      intro r i r' h
      match i with
      | 0 =>
          simp only [bwAux, List.getElem?_cons_zero, Option.some.injEq] at h
          exact ⟨r, tripleOf r, by simp, h.symm⟩
      | i + 1 => simp [bwAux] at h
  | cons r2 rest ih =>
      intro r i r' h
      match i with
      | 0 =>
          simp only [bwAux, List.getElem?_cons_zero, Option.some.injEq] at h
          exact ⟨r, _, by simp, h.symm⟩
      | i + 1 =>
          simp only [bwAux, List.getElem?_cons_succ] at h
          obtain ⟨x, nx, hx, rfl⟩ := ih r2 i r' h
          exact ⟨x, nx, by simpa using hx, rfl⟩

theorem next_chord_sweep_pres {l : List Row} {i : ℕ} {r' : Row}
    (h : (next_chord_sweep l)[i]? = some r') :
    ∃ x nx, l[i]? = some x ∧ r' = setNx x nx := by
  cases l with
  | nil => simp [next_chord_sweep] at h
  | cons r t => exact bwAux_pres t r i r' h

theorem bwAux_idem :
    ∀ (t : List Row) (r : Row),
      ∃ ph pt, (bwAux r t).2 = ph :: pt ∧ bwAux ph pt = bwAux r t := by
  intro t
  induction t with
  | nil =>
      intro r
      refine ⟨setNx r (tripleOf r), [], rfl, ?_⟩
      simp [bwAux, tripleOf_setNx, setNx_setNx, chord_setNx]
  | cons r2 rest ih =>
      intro r
      obtain ⟨ph, pt, hp, hrec⟩ := ih r2
      refine ⟨setNx r (if r.chord ≠ (bwAux r2 rest).1.1 then
        (r.chord, tripleOf r2) else (bwAux r2 rest).1).2,
        (bwAux r2 rest).2, rfl, ?_⟩
      conv_lhs => rw [hp]
      show ((if (setNx r _).chord ≠ (bwAux ph pt).1.1 then
          ((setNx r _).chord, tripleOf ph) else (bwAux ph pt).1),
        setNx (setNx r _) _ :: (bwAux ph pt).2) = _
      rw [hrec]
      have hph : tripleOf ph = tripleOf r2 := by
        have := bwAux_triples rest r2
        rw [hp] at this
        simpa using congrArg (fun l => l.head?) this
      simp only [chord_setNx, setNx_setNx, hph]
      show _ = ((if r.chord ≠ (bwAux r2 rest).1.1 then
          (r.chord, tripleOf r2) else (bwAux r2 rest).1),
        setNx r (if r.chord ≠ (bwAux r2 rest).1.1 then
          (r.chord, tripleOf r2) else (bwAux r2 rest).1).2 :: (bwAux r2 rest).2)
      rfl

theorem next_chord_sweep_idem (l : List Row) :
    next_chord_sweep (next_chord_sweep l) = next_chord_sweep l := by
  cases l with
  | nil => rfl
  | cons r t =>
      obtain ⟨ph, pt, hp, hrec⟩ := bwAux_idem t r
      show next_chord_sweep ((bwAux r t).2) = _
      rw [hp]
      show (bwAux ph pt).2 = _
      rw [hrec]
      rfl

theorem updSt_self {σ : ChSt} (h : Consistent σ) (c : List Char) :
    updSt σ (updSt σ c).ch = updSt σ c := by
  by_cases hc : c = []
  · simp only [updSt, hc, if_true]
    by_cases hσ : σ.ch = []
    · simp [hσ]
    · simp only [hσ, if_false]
      obtain ⟨h1, h2⟩ := h
      cases σ
      simp only at h1 h2 ⊢
      rw [← h1, ← h2]
  · simp [updSt, hc]

theorem alignedF_fwGo {σ : ChSt} (h : Consistent σ) (l : List Row) :
    AlignedF σ (fwGo σ l) := by
  induction l generalizing σ with
  | nil => trivial
  | cons r t ih =>
      show AlignedF σ (setCh r (updSt σ r.chord) :: fwGo (updSt σ r.chord) t)
      have hch : (setCh r (updSt σ r.chord)).chord = (updSt σ r.chord).ch := rfl
      constructor
      · rw [hch, updSt_self h]
        rfl
      · rw [hch, updSt_self h]
        exact ih (consistent_updSt h r.chord)

theorem setCh_eq_self {r : Row} {σ : ChSt}
    (h : tripleOf r = (σ.ch, σ.rt, σ.ql)) : setCh r σ = r := by
  have h1 : r.chord = σ.ch := congrArg Prod.fst h
  have h2 : r.chord_root = σ.rt := congrArg (fun p => p.2.1) h
  have h3 : r.chord_quality = σ.ql := congrArg (fun p => p.2.2) h
  cases r
  simp only at h1 h2 h3
  simp [setCh, h1, h2, h3]

theorem fwGo_fix {σ : ChSt} :
    ∀ {l : List Row}, AlignedF σ l → fwGo σ l = l := by
  intro l
  induction l generalizing σ with
  | nil => intro _; rfl
  | cons r t ih =>
      intro h
      obtain ⟨h1, h2⟩ := h
      show setCh r (updSt σ r.chord) :: fwGo (updSt σ r.chord) t = r :: t
      rw [setCh_eq_self h1, ih h2]

theorem alignedF_congr :
    ∀ {l₁ l₂ : List Row} {σ : ChSt},
      l₁.map tripleOf = l₂.map tripleOf → AlignedF σ l₁ → AlignedF σ l₂ := by
  intro l₁
  induction l₁ with
  | nil =>
      intro l₂ σ hm _
      cases l₂ with
      | nil => trivial
      | cons _ _ => simp at hm
  | cons r1 t1 ih =>
      intro l₂ σ hm h
      cases l₂ with
      | nil => simp at hm
      | cons r2 t2 =>
          simp only [List.map_cons, List.cons.injEq] at hm
          obtain ⟨hhd, htl⟩ := hm
          obtain ⟨h1, h2⟩ := h
          have hch : r2.chord = r1.chord := by
            have := congrArg Prod.fst hhd
            simpa [tripleOf] using this.symm
          constructor
          · rw [hch, ← hhd]
            exact h1
          · rw [hch]
            exact ih htl h2

theorem align_chords_length (l : List Row) :
    (align_chords l).length = l.length := by
  unfold align_chords
  rw [next_chord_sweep_length, fwGo_length]

theorem align_chords_getElem {l : List Row} {i : ℕ} {r' : Row}
    (h : (align_chords l)[i]? = some r') :
    ∃ x, l[i]? = some x ∧
      tripleOf r' = ((stAfter initSt (l.take (i + 1))).ch,
        (stAfter initSt (l.take (i + 1))).rt,
        (stAfter initSt (l.take (i + 1))).ql) := by
  unfold align_chords at h
  obtain ⟨y, nx, hy, rfl⟩ := next_chord_sweep_pres h
  rw [fwGo_getElem?] at hy
  cases hx : l[i]? with
  | none => rw [hx, Option.map_none'] at hy; exact Option.noConfusion hy
  | some x =>
      rw [hx, Option.map_some'] at hy
      obtain rfl : setCh x (stAfter initSt (l.take (i + 1))) = y :=
        Option.some.inj hy
      exact ⟨x, rfl, rfl⟩

theorem align_chords_self {l : List Row} {i : ℕ} {r' : Row}
    (h : (align_chords l)[i]? = some r') :
    r'.chord_root = parseRt r'.chord ∧ r'.chord_quality = parseQl r'.chord := by
  obtain ⟨x, _, htr⟩ := align_chords_getElem h
  have hcons : Consistent (stAfter initSt (l.take (i + 1))) :=
    consistent_stAfter consistent_initSt _
  have h1 : r'.chord = (stAfter initSt (l.take (i + 1))).ch :=
    congrArg Prod.fst htr
  have h2 : r'.chord_root = (stAfter initSt (l.take (i + 1))).rt :=
    congrArg (fun p => p.2.1) htr
  have h3 : r'.chord_quality = (stAfter initSt (l.take (i + 1))).ql :=
    congrArg (fun p => p.2.2) htr
  exact ⟨by rw [h2, h1, hcons.1], by rw [h3, h1, hcons.2]⟩

theorem fillBelow_getElem? (dr dq : ℤ) :
    ∀ (l : List Row) (k i : ℕ),
      (fillBelow dr dq k l)[i]? =
        if i < k then (l[i]?).map (pickupRow dr dq) else l[i]? := by
  intro l
  induction l with
  | nil =>
      intro k i
      cases k <;> simp [fillBelow]
  | cons r t ih =>
      intro k i
      match k with
      | 0 => simp [fillBelow]
      | k + 1 =>
          match i with
          | 0 => simp [fillBelow]
          | i + 1 =>
              simp only [fillBelow, List.getElem?_cons_succ]
              rw [ih k i]
              by_cases hik : i < k
              · simp [hik, Nat.succ_lt_succ hik]
              · have : ¬ (i + 1 < k + 1) := by omega
                simp [hik, this]

theorem fillBelow_length (dr dq : ℤ) :
    ∀ (l : List Row) (k : ℕ), (fillBelow dr dq k l).length = l.length := by
  intro l
  induction l with
  | nil => intro k; cases k <;> rfl
  | cons r t ih =>
      intro k
      cases k with
      | zero => rfl
      | succ k => simp [fillBelow, ih]

theorem fill_pickup_measures_length (l : List Row) :
    (fill_pickup_measures l).length = l.length := by
  unfold fill_pickup_measures
  repeat' split
  all_goals simp [fillBelow_length]

theorem rootIndexOf_bounds (t : List Char) :
    0 ≤ rootIndexOf t ∧ rootIndexOf t ≤ 11 := by
  unfold rootIndexOf
  cases h1 : idxFirst (fun n => n == t) NOTE_NAMES with
  | some i =>
      have hlt : i < 12 := by simpa [NOTE_NAMES] using idxFirst_lt_length h1
      show (0 : ℤ) ≤ (i : ℤ) ∧ (i : ℤ) ≤ 11
      omega
  | none =>
      cases h2 : idxFirst (fun n => n == t) NOTE_NAMES_SHARP with
      | some i =>
          have hlt : i < 12 := by
            simpa [NOTE_NAMES_SHARP] using idxFirst_lt_length h2
          show (0 : ℤ) ≤ (i : ℤ) ∧ (i : ℤ) ≤ 11
          omega
      | none =>
          show (0 : ℤ) ≤ (0 : ℤ) ∧ (0 : ℤ) ≤ 11
          omega

theorem qualityIndexOf_bounds (q : List Char) :
    0 ≤ qualityIndexOf q ∧ qualityIndexOf q ≤ 3 := by
  unfold qualityIndexOf
  cases h1 : idxFirst (fun kv => kv.2.contains q) CHORD_QUALITY_MAP with
  | some i =>
      have hlt : i < 4 := by
        simpa [CHORD_QUALITY_MAP] using idxFirst_lt_length h1
      show (0 : ℤ) ≤ (i : ℤ) ∧ (i : ℤ) ≤ 3
      omega
  | none =>
      show (0 : ℤ) ≤ (0 : ℤ) ∧ (0 : ℤ) ≤ 3
      omega

theorem melodic_go_length (prev : Option ℤ) (l : List Row) :
    (melodic_go prev l).length = l.length := by
  induction l generalizing prev with
  | nil => rfl
  | cons r t ih => simp [melodic_go, ih]

theorem load_and_flatten_solo_length (beats : List BeatEvent)
    (melody : List MelodyEvent) (info : SoloInfo) (melid : ℤ)
    (h : ∀ b ∈ beats,
      (melody.filter (fun m => m.bar == b.bar && m.beat == b.beat)).length ≤ 1) :
    (load_and_flatten_solo beats melody info melid).length = beats.length := by
  induction beats with
  | nil => rfl
  | cons b bs ih =>
      have hb := h b (by simp)
      have hrest : ∀ b' ∈ bs,
          (melody.filter
            (fun m : MelodyEvent => m.bar == b'.bar && m.beat == b'.beat)).length ≤ 1 :=
        fun b' hb' => h b' (by simp [hb'])
      simp only [load_and_flatten_solo, List.flatMap_cons, List.length_append]
      have hhd : (match melody.filter
            (fun m : MelodyEvent => m.bar == b.bar && m.beat == b.beat) with
          | [] => [mkRow b none info melid]
          | ms => ms.map (fun m => mkRow b (some m) info melid)).length = 1 := by
        cases hf : melody.filter
            (fun m : MelodyEvent => m.bar == b.bar && m.beat == b.beat) with
        | nil => rfl
        | cons m ms =>
            rw [hf] at hb
            simp only [List.length_cons] at hb
            have : ms = [] := List.length_eq_zero.mp (by omega)
            subst this
            rfl
      rw [hhd]
      have := ih hrest
      simp only [load_and_flatten_solo] at this
      rw [this]
      simp only [List.length_cons]
      omega

/-! ## Claim theorems -/

/-- Claim C1: after `_align_chords`, a row whose prefix contains a row with
non-empty chord text carries the chord text of the most recent such row and
the parse of that text as `chord_root` / `chord_quality`; a row with no
non-empty chord text at or before it ends the step with null
`chord_root` / `chord_quality`. -/
theorem align_inherits_most_recent_chord (l : List Row) (i : ℕ) (r' : Row)
    (h : (align_chords l)[i]? = some r') :
    (∀ x, lastNE (l.take (i + 1)) = some x →
       r'.chord = x.chord ∧ r'.chord_root = parseRt x.chord ∧
       r'.chord_quality = parseQl x.chord) ∧
    (lastNE (l.take (i + 1)) = none →
       r'.chord_root = none ∧ r'.chord_quality = none) := by
  obtain ⟨x0, hx0, htr⟩ := align_chords_getElem h
  rw [stAfter_lastNE] at htr
  have p1 := congrArg Prod.fst htr
  have p2 := congrArg (fun p => p.2.1) htr
  have p3 := congrArg (fun p => p.2.2) htr
  constructor
  · intro x hlt
    rw [hlt] at p1 p2 p3
    exact ⟨p1, p2, p3⟩
  · intro hlt
    rw [hlt] at p2 p3
    exact ⟨p2, p3⟩

/-- Witness for C1 on a concrete two-row table: the second row (empty chord
text) inherits the first row's `C7` with its parsed root and quality. -/
theorem align_inherits_most_recent_chord_witness :
    ((align_chords [{ sampleRow with chord := ['C', '7'] },
        { sampleRow with beatid := 2 }])[1]?).map
      (fun r => (r.chord, r.chord_root, r.chord_quality)) =
    some (['C', '7'], some 0, some 2) := by
  cases h : (align_chords [{ sampleRow with chord := ['C', '7'] },
      { sampleRow with beatid := 2 }])[1]? with
  | none => exact absurd h (by decide)
  | some r' =>
      have hc := align_inherits_most_recent_chord
        [{ sampleRow with chord := ['C', '7'] },
          { sampleRow with beatid := 2 }] 1 r' h
      have hx := hc.1 { sampleRow with chord := ['C', '7'] } (by decide)
      rw [Option.map_some', hx.1, hx.2.1, hx.2.2]
      decide

/-- Claim C9: chord alignment is idempotent — re-running `_align_chords` on
its own output returns the identical table. -/
theorem align_chords_idempotent (l : List Row) :
    align_chords (align_chords l) = align_chords l := by
  show next_chord_sweep (fwGo initSt (next_chord_sweep (fwGo initSt l))) = _
  have h2 : AlignedF initSt (next_chord_sweep (fwGo initSt l)) :=
    alignedF_congr (next_chord_sweep_triples (fwGo initSt l)).symm
      (alignedF_fwGo consistent_initSt l)
  rw [fwGo_fix h2, next_chord_sweep_idem]
  rfl

/-- Claim C2: after the pickup fill on an aligned table, if the first row
with real chord text (neither `NC` nor empty) sits at position `k > 0` and
its text parses to root `r`, every row before `k` carries
`chord_root = (r + 7) % 12`, `chord_quality = 2` (dominant) and chord text
`NOTE_NAMES[(r + 7) % 12] ++ "7"`; if no row has real chord text,
`chord_root` and `chord_quality` are null on every row. -/
theorem pickup_fill_secondary_dominant (l : List Row) :
    (∀ (k i : ℕ) (rk r' : Row) (r q : ℤ),
        first_valid_idx (align_chords l) = some k → 0 < k →
        (align_chords l)[k]? = some rk →
        parse_chord rk.chord = some (r, q) →
        i < k →
        (fill_pickup_measures (align_chords l))[i]? = some r' →
        r'.chord_root = some ((r + 7) % 12) ∧
        r'.chord_quality = some 2 ∧
        r'.chord = (NOTE_NAMES.getD ((r + 7) % 12).toNat []) ++ ['7']) ∧
    (first_valid_idx (align_chords l) = none →
      ∀ (i : ℕ) (r' : Row),
        (fill_pickup_measures (align_chords l))[i]? = some r' →
        r'.chord_root = none ∧ r'.chord_quality = none) := by
  constructor
  · intro k i rk r' r q hfv hk hrk hparse hik hr'
    have hself := align_chords_self hrk
    have hroot : rk.chord_root = some r := by
      rw [hself.1]; unfold parseRt; rw [hparse]; rfl
    have hk0 : k ≠ 0 := Nat.pos_iff_ne_zero.mp hk
    have hsd : calculate_secondary_dominant r = ((r + 7) % 12, 2) := rfl
    have hfill : fill_pickup_measures (align_chords l) =
        fillBelow ((r + 7) % 12) 2 k (align_chords l) := by
      unfold fill_pickup_measures
      rw [hfv]
      simp only [hk0, if_false, hrk, hroot, hsd]
    rw [hfill, fillBelow_getElem?, if_pos hik] at hr'
    cases hx : (align_chords l)[i]? with
    | none => rw [hx, Option.map_none'] at hr'; exact Option.noConfusion hr'
    | some x =>
        rw [hx, Option.map_some'] at hr'
        obtain rfl : pickupRow ((r + 7) % 12) 2 x = r' := Option.some.inj hr'
        exact ⟨rfl, rfl, rfl⟩
  · intro hfv i r' hr'
    have hfill : fill_pickup_measures (align_chords l) = align_chords l := by
      unfold fill_pickup_measures
      rw [hfv]
    rw [hfill] at hr'
    have hself := align_chords_self hr'
    have hpred := idxFirst_none hfv i r' hr'
    have hchord : r'.chord = NC ∨ r'.chord = [] := by
      by_cases h1 : r'.chord = NC
      · exact Or.inl h1
      · by_cases h2 : r'.chord = []
        · exact Or.inr h2
        · simp [h1, h2] at hpred
    have hrtNC : parseRt NC = none := by decide
    have hrtNil : parseRt ([] : List Char) = none := by decide
    have hqlNC : parseQl NC = none := by decide
    have hqlNil : parseQl ([] : List Char) = none := by decide
    rcases hchord with h | h
    · exact ⟨by rw [hself.1, h, hrtNC], by rw [hself.2, h, hqlNC]⟩
    · exact ⟨by rw [hself.1, h, hrtNil], by rw [hself.2, h, hqlNil]⟩

/-- Witness for C2: with one pickup row before a `C7` chord the pickup row
receives the secondary dominant `G7` (root 7, dominant quality). -/
theorem pickup_fill_secondary_dominant_witness :
    ((fill_pickup_measures (align_chords [sampleRow,
        { sampleRow with chord := ['C', '7'] }]))[0]?).map
      (fun r => (r.chord_root, r.chord_quality, r.chord)) =
    some (some 7, some 2, ['G', '7']) := by
  cases hrk : (align_chords [sampleRow,
      { sampleRow with chord := ['C', '7'] }])[1]? with
  | none => exact absurd hrk (by decide)
  | some rk =>
      cases hr' : (fill_pickup_measures (align_chords [sampleRow,
          { sampleRow with chord := ['C', '7'] }]))[0]? with
      | none => exact absurd hr' (by decide)
      | some r' =>
          have hch : rk.chord = ['C', '7'] := by
            have h2 : ((align_chords [sampleRow,
                { sampleRow with chord := ['C', '7'] }])[1]?).map
                (fun r => r.chord) = some ['C', '7'] := by decide
            rw [hrk, Option.map_some'] at h2
            exact Option.some.inj h2
          have hparse : parse_chord rk.chord = some (0, 2) := by
            rw [hch]; decide
          have hfv : first_valid_idx (align_chords [sampleRow,
              { sampleRow with chord := ['C', '7'] }]) = some 1 := by decide
          have hc := (pickup_fill_secondary_dominant
            [sampleRow, { sampleRow with chord := ['C', '7'] }]).1
            1 0 rk r' 0 2 hfv (by decide) hrk hparse (by decide) hr'
          rw [Option.map_some', hc.1, hc.2.1, hc.2.2]
          decide

/-- Claim C10: the pickup fill writes only `chord`, `chord_root`,
`chord_quality`, and only on rows strictly before the first row whose chord
text is real (neither `NC` nor empty); every other field of every row, and
every field of every row at or after that first row (or of every row when
no such row exists), is returned unchanged. -/
theorem fill_cases (l : List Row) :
    fill_pickup_measures l = l ∨
    ∃ k dr dq, first_valid_idx l = some k ∧ 0 < k ∧
      fill_pickup_measures l = fillBelow dr dq k l := by
  unfold fill_pickup_measures
  cases hfv : first_valid_idx l with
  | none => exact Or.inl rfl
  | some k =>
      by_cases hk0 : k = 0
      · simp [hk0]
      · cases hlk : l[k]? with
        | none => simp [hk0, hlk]
        | some rk =>
            cases hcr : rk.chord_root with
            | none => simp [hk0, hlk, hcr]
            | some r0 =>
                right
                refine ⟨k, (calculate_secondary_dominant r0).1,
                  (calculate_secondary_dominant r0).2, rfl,
                  Nat.pos_of_ne_zero hk0, ?_⟩
                simp [hk0, hlk, hcr]

theorem pickup_fill_frame (l : List Row) (i : ℕ) (x r' : Row)
    (hx : l[i]? = some x)
    (hr' : (fill_pickup_measures l)[i]? = some r') :
    nonChordFields r' = nonChordFields x ∧
    (∀ k, first_valid_idx l = some k → k ≤ i → r' = x) ∧
    (first_valid_idx l = none → r' = x) := by
  rcases fill_cases l with heq | ⟨k, dr, dq, hfv, hkpos, heq⟩
  · rw [heq] at hr'
    obtain rfl : x = r' := Option.some.inj (hx.symm.trans hr')
    exact ⟨rfl, fun _ _ _ => rfl, fun _ => rfl⟩
  · rw [heq, fillBelow_getElem?] at hr'
    by_cases hik : i < k
    · rw [if_pos hik, hx, Option.map_some'] at hr'
      obtain rfl : pickupRow dr dq x = r' := Option.some.inj hr'
      refine ⟨rfl, ?_, ?_⟩
      · intro k' hk' hki
        obtain rfl : k = k' := Option.some.inj (hfv.symm.trans hk')
        omega
      · intro hnone
        rw [hfv] at hnone
        exact Option.noConfusion hnone
    · rw [if_neg hik] at hr'
      obtain rfl : x = r' := Option.some.inj (hx.symm.trans hr')
      exact ⟨rfl, fun _ _ _ => rfl, fun _ => rfl⟩

/-- Witness for C10: on a two-row table whose second row holds the first
real chord, the fill returns row 1 (at the first real chord) exactly
unchanged. -/
theorem pickup_fill_frame_witness :
    (fill_pickup_measures (align_chords [sampleRow,
        { sampleRow with chord := ['C', '7'] }]))[1]? =
    (align_chords [sampleRow, { sampleRow with chord := ['C', '7'] }])[1]? := by
  cases hx : (align_chords [sampleRow,
      { sampleRow with chord := ['C', '7'] }])[1]? with
  | none => exact absurd hx (by decide)
  | some x =>
      cases hr' : (fill_pickup_measures (align_chords [sampleRow,
          { sampleRow with chord := ['C', '7'] }]))[1]? with
      | none => exact absurd hr' (by decide)
      | some r' =>
          have hfv : first_valid_idx (align_chords [sampleRow,
              { sampleRow with chord := ['C', '7'] }]) = some 1 := by decide
          have heq := (pickup_fill_frame (align_chords [sampleRow,
            { sampleRow with chord := ['C', '7'] }]) 1 x r' hx hr').2.1
            1 hfv (by decide)
          rw [heq]

/-- Claim C3: `parse_chord` returns the documented pairs — `Ebj7 ↦ (3, 0)`,
`F-7 ↦ (5, 1)`, `Bb7913 ↦ (10, 2)`, `Gm7b5 ↦ (7, 3)`; for every valid
symbol the result is the table lookup of its root and quality tokens, where
a root token found in neither name table yields root 0 and a quality token
in no suffix list yields quality 0 (Major). -/
theorem parse_chord_documented_pairs :
    parse_chord ['E','b','j','7'] = some (3, 0) ∧
    parse_chord ['F','-','7'] = some (5, 1) ∧
    parse_chord ['B','b','7','9','1','3'] = some (10, 2) ∧
    parse_chord ['G','m','7','b','5'] = some (7, 3) ∧
    (∀ s : List Char, s ≠ NC → s ≠ [] →
      parse_chord s = some (rootIndexOf (rootTokenOf (pyStrip s)),
        qualityIndexOf (qualityTokenOf (pyStrip s)))) ∧
    (∀ (t : List Char) (i : ℕ),
      idxFirst (fun n => n == t) NOTE_NAMES = some i →
      rootIndexOf t = i) ∧
    (∀ (t : List Char) (i : ℕ),
      idxFirst (fun n => n == t) NOTE_NAMES = none →
      idxFirst (fun n => n == t) NOTE_NAMES_SHARP = some i →
      rootIndexOf t = i) ∧
    (∀ t : List Char,
      idxFirst (fun n => n == t) NOTE_NAMES = none →
      idxFirst (fun n => n == t) NOTE_NAMES_SHARP = none →
      rootIndexOf t = 0) ∧
    (∀ (q : List Char) (i : ℕ),
      idxFirst (fun kv => kv.2.contains q) CHORD_QUALITY_MAP = some i →
      qualityIndexOf q = i) ∧
    (∀ q : List Char,
      idxFirst (fun kv => kv.2.contains q) CHORD_QUALITY_MAP = none →
      qualityIndexOf q = 0) := by
  refine ⟨by decide, by decide, by decide, by decide, ?_, ?_, ?_, ?_, ?_, ?_⟩
  · intro s h1 h2
    have hv : is_valid_chord s = true := by
      simp [is_valid_chord, h1, h2]
    simp [parse_chord, hv]
  · intro t i h
    unfold rootIndexOf
    rw [h]
  · intro t i h1 h2
    unfold rootIndexOf
    rw [h1, h2]
  · intro t h1 h2
    unfold rootIndexOf
    rw [h1, h2]
  · intro q i h
    unfold qualityIndexOf
    rw [h]
  · intro q h
    unfold qualityIndexOf
    rw [h]

/-- Witness for C3: applying the general valid-symbol equation to the
concrete symbol `Db-7` yields the documented pair `(1, 1)`. -/
theorem parse_chord_documented_pairs_witness :
    parse_chord ['D','b','-','7'] = some (1, 1) := by
  have h := parse_chord_documented_pairs.2.2.2.2.1
    ['D','b','-','7'] (by decide) (by decide)
  rw [h]
  decide

/-- Claim C4: `parse_chord` returns absent exactly on the `'NC'` sentinel
and the empty string; on every other string it returns a defined pair with
root in 0–11 and quality in 0–3 (and, being a total function, never
raises). -/
theorem parse_chord_total :
    (∀ s : List Char, parse_chord s = none ↔ (s = NC ∨ s = [])) ∧
    (∀ (s : List Char) (p : ℤ × ℤ), parse_chord s = some p →
      0 ≤ p.1 ∧ p.1 ≤ 11 ∧ 0 ≤ p.2 ∧ p.2 ≤ 3) := by
  constructor
  · intro s
    constructor
    · intro h
      by_cases h1 : s = NC
      · exact Or.inl h1
      · by_cases h2 : s = []
        · exact Or.inr h2
        · have hv : is_valid_chord s = true := by
            simp [is_valid_chord, h1, h2]
          simp [parse_chord, hv] at h
    · intro h
      have hv : ¬ is_valid_chord s = true := by
        rcases h with h | h <;> simp [is_valid_chord, h]
      simp [parse_chord, hv]
  · intro s p h
    by_cases hv : is_valid_chord s = true
    · rw [parse_chord, if_neg (by simpa using hv)] at h
      obtain rfl : (rootIndexOf (rootTokenOf (pyStrip s)),
          qualityIndexOf (qualityTokenOf (pyStrip s))) = p :=
        Option.some.inj h
      exact ⟨(rootIndexOf_bounds _).1, (rootIndexOf_bounds _).2,
        (qualityIndexOf_bounds _).1, (qualityIndexOf_bounds _).2⟩
    · rw [parse_chord, if_pos (by simpa using hv)] at h
      exact Option.noConfusion h

/-- Witness for C4: the malformed symbol `Z` parses to the default pair
`(0, 0)`, which lies inside the documented ranges. -/
theorem parse_chord_total_witness :
    0 ≤ ((0 : ℤ), (0 : ℤ)).1 ∧ ((0 : ℤ), (0 : ℤ)).1 ≤ 11 ∧
    0 ≤ ((0 : ℤ), (0 : ℤ)).2 ∧ ((0 : ℤ), (0 : ℤ)).2 ≤ 3 :=
  parse_chord_total.2 ['Z'] (0, 0) (by decide)

/-- Claim C5: for every `beat`, `tatum`, `division` cell (missing,
non-numeric-as-missing, negative, zero, huge),
`pos_grid = clip((beat-1)*12 + round((tatum-1)/division*12), 0, 47)` over
the safe-integer coercions with default 1 and division 0 replaced by 1; in
particular `(beat, tatum, division) = (2, 3, 4)` gives 18, and the value is
always in 0–47. -/
theorem position_grid_formula :
    (∀ beat tatum division : Val,
      calculate_position_grid beat tatum division =
        clip_to_range ((safe_int beat 1 - 1) * 12 +
          pyRound (((safe_int tatum 1 - 1 : ℤ) : ℚ) /
            (((if safe_int division 1 = 0 then 1
               else safe_int division 1) : ℤ) : ℚ) * 12)) 0 47) ∧
    calculate_position_grid (.vi 2) (.vi 3) (.vi 4) = 18 ∧
    (∀ beat tatum division : Val,
      0 ≤ calculate_position_grid beat tatum division ∧
      calculate_position_grid beat tatum division ≤ 47) := by
  refine ⟨fun b t d => rfl, ?_, fun b t d => ?_⟩
  · have h18 : calculate_position_grid (.vi 2) (.vi 3) (.vi 4) =
        clip_to_range ((2 - 1) * 12 +
          pyRound (((2 : ℤ) : ℚ) / ((4 : ℤ) : ℚ) * 12)) 0 47 := rfl
    rw [h18]
    norm_num [pyRound, clip_to_range]
  · unfold calculate_position_grid
    exact clip_to_range_mem (by decide)

/-- Claim C6: `dur_grid` is 1 whenever duration or beat-duration is missing
or beat-duration is zero; otherwise it is
`clip(round(duration/beatdur * 12), 1, 48)`; in every case it lies in
1–48. -/
theorem duration_grid_formula :
    (∀ b : Option ℚ, calculate_duration_grid none b = 1) ∧
    (∀ d : Option ℚ, calculate_duration_grid d none = 1) ∧
    (∀ d : Option ℚ, calculate_duration_grid d (some 0) = 1) ∧
    (∀ d b : ℚ, b ≠ 0 →
      calculate_duration_grid (some d) (some b) =
        clip_to_range (pyRound (d / b * 12)) 1 48) ∧
    (∀ d b : Option ℚ, 1 ≤ calculate_duration_grid d b ∧
      calculate_duration_grid d b ≤ 48) := by
  refine ⟨?_, ?_, ?_, ?_, ?_⟩
  · intro b; simp [calculate_duration_grid]
  · intro d; simp [calculate_duration_grid]
  · intro d; simp [calculate_duration_grid]
  · intro d b hb
    have hc : ¬ ((some d : Option ℚ) = none ∨ (some b : Option ℚ) = none ∨
        (some b : Option ℚ) = some 0) := by simp [hb]
    rw [calculate_duration_grid, if_neg hc]
    simp [safe_divide, hb, GRID_PER_BEAT, GRID_PER_BAR]
  · intro d b
    unfold calculate_duration_grid
    by_cases hc : d = none ∨ b = none ∨ b = some 0
    · rw [if_pos hc]; exact ⟨le_refl 1, by decide⟩
    · rw [if_neg hc]; exact clip_to_range_mem (by decide)

/-- Witness for C6 (non-degenerate branch): duration 1 s over beat duration
2 s gives `clip(round(6), 1, 48) = 6`. -/
theorem duration_grid_formula_witness :
    calculate_duration_grid (some 1) (some 2) =
      clip_to_range (pyRound (1 / 2 * 12)) 1 48 :=
  duration_grid_formula.2.2.2.1 1 2 (by decide)

/-- Counterexample to C7: a pipeline row with a resolved chord root but a
missing pitch (a beat with no melody event) ends with a null
`chord_rel_pitch` in the final output — not the defined integer the claim
requires. -/
theorem chord_rel_pitch_counterexample :
    ((process_single_solo [sampleBeat] [] sampleInfo 5)[0]?).map
        (fun r => r.chord_rel_pitch) = some none ∧
    ((process_single_solo [sampleBeat] [] sampleInfo 5)[0]?).map
        (fun r => r.chord_root) = some (some 0) := by
  constructor <;> decide

/-- Claim C7 (amended): `chord_rel_pitch` is `(pitch - chord_root) % 12`
(an integer in 0–11) when both pitch and chord root are present, `0` when
the chord root is unresolved, and null when the chord root is resolved but
the pitch is missing; the harmonic stage computes exactly this cell for
every row. -/
theorem chord_rel_pitch_spec :
    (∀ p : Option ℤ, chord_rel_pitch_of p none = some 0) ∧
    (∀ p cr : ℤ, chord_rel_pitch_of (some p) (some cr) =
        some ((p - cr) % 12) ∧
      0 ≤ (p - cr) % 12 ∧ (p - cr) % 12 ≤ 11) ∧
    (∀ cr : ℤ, chord_rel_pitch_of none (some cr) = none) ∧
    (∀ (l : List Row) (i : ℕ) (r' : Row),
      (add_harmonic_features l)[i]? = some r' →
      ∃ x, l[i]? = some x ∧
        r'.chord_rel_pitch = chord_rel_pitch_of x.pitch x.chord_root) := by
  refine ⟨fun p => rfl, fun p cr => ⟨rfl, ?_, ?_⟩, fun cr => rfl, ?_⟩
  · exact Int.emod_nonneg _ (by decide)
  · have := Int.emod_lt_of_pos (p - cr) (show (0 : ℤ) < 12 by decide)
    omega
  · intro l i r' h
    unfold add_harmonic_features at h
    rw [List.getElem?_map] at h
    cases hx : l[i]? with
    | none => rw [hx, Option.map_none'] at h; exact Option.noConfusion h
    | some x =>
        rw [hx, Option.map_some'] at h
        have := Option.some.inj h
        exact ⟨x, rfl, by rw [← this]⟩

/-- Witness for C7 (amended): on a one-row table with resolved chord root 0
and no pitch, the harmonic stage produces a null `chord_rel_pitch` cell, as
`chord_rel_pitch_of none (some 0)` prescribes. -/
theorem chord_rel_pitch_spec_witness :
    ((add_harmonic_features [{ sampleRow with chord_root := some 0 }])[0]?).map
      (fun r => r.chord_rel_pitch) = some none := by
  cases h : (add_harmonic_features
      [{ sampleRow with chord_root := some 0 }])[0]? with
  | none => exact absurd h (by decide)
  | some r' =>
      obtain ⟨x, hx, heq⟩ := chord_rel_pitch_spec.2.2.2
        [{ sampleRow with chord_root := some 0 }] 0 r' h
      have hxx : ({ sampleRow with chord_root := some 0 } : Row) = x := by
        simpa using hx
      rw [Option.map_some', heq, ← hxx]
      rfl

/-- Claim C8: when every `(bar, beat)` position matches at most one melody
event, the per-solo output table has exactly one row per beat event — the
left join and every later stage neither drop nor duplicate beat rows. -/
theorem process_single_solo_row_count (beats : List BeatEvent)
    (melody : List MelodyEvent) (info : SoloInfo) (melid : ℤ)
    (h : ∀ b ∈ beats,
      (melody.filter
        (fun m : MelodyEvent => m.bar == b.bar && m.beat == b.beat)).length ≤ 1) :
    (process_single_solo beats melody info melid).length = beats.length := by
  unfold process_single_solo convert_dtypes select_final_features
    add_harmonic_features add_melodic_features add_rhythmic_features
  rw [List.length_map, List.length_map, melodic_go_length, List.length_map,
    fill_pickup_measures_length, align_chords_length]
  exact load_and_flatten_solo_length beats melody info melid h

/-- Witness for C8: a solo with one beat event and no melody events yields
exactly one output row. -/
theorem process_single_solo_row_count_witness :
    (process_single_solo [sampleBeat] [] sampleInfo 5).length = 1 :=
  process_single_solo_row_count [sampleBeat] [] sampleInfo 5 (by decide)

end WJDPre
